import Mathlib

/-!
Verification of the SentencePiece Python binding contract.

The repository's visible source is packaging glue around the native
SentencePiece engine: `setup.py` (native-library discovery and extension
build), `_init.py` (import-time path initialization), and test suites that
pin down the observable contract of the bound processor (round-trip
encoding, piece/id correspondence, error behaviour on out-of-range ids,
sampling, batching, and protocol-buffer output variants).

The native engine itself is not part of the visible source, so the
processor operations are modelled from the specification's description of
their observable contract, over UTF-8 byte strings (the representation the
engine actually operates on).  The build and initialization scripts are
embedded directly from their Python source.
-/

set_option maxRecDepth 40000

/-- A text, as the UTF-8 byte sequence the native engine operates on. -/
abbrev Bytes := List Nat

/-- A byte sequence is valid when every element is an actual byte. -/
def ValidBytes (t : Bytes) : Prop := ∀ b ∈ t, b < 256

instance : DecidablePred ValidBytes := fun t =>
  List.decidableBAll (fun b => b < 256) t

/-- Piece types recorded in a SentencePiece model (normal, unknown,
control, unused, byte). -/
inductive SPieceType where
  | normal
  | unknown
  | control
  | unused
  | byte
deriving DecidableEq

/-- Modelled from the spec: the native engine's loaded model
(`SentencePieceProcessor` after `Load` / `LoadFromSerializedProto`) is not
in the visible source.  A loaded processor is modelled as its vocabulary:
an ordered list of distinct, non-empty byte-string pieces, together with
per-id score and piece-type attributes.  The `byteCover` invariant is the
engine's character-coverage / byte-fallback guarantee presumed by the
spec's lossless round-trip contract: every single byte is itself a piece
of the vocabulary, so any input text is representable. -/
structure Processor where
  pieces : List Bytes
  scoreFn : Nat → Int
  typeFn : Nat → SPieceType
  nodup : pieces.Nodup
  noNil : [] ∉ pieces
  byteCover : ∀ b : Nat, b < 256 → [b] ∈ pieces

namespace Processor

/-- Modelled from the spec: `GetPieceSize` returns the vocabulary size. -/
def GetPieceSize (p : Processor) : Nat := p.pieces.length

/-- Modelled from the spec: `IdToPiece` maps a vocabulary index to its
piece; indices outside the vocabulary fail (`none`). -/
def IdToPiece (p : Processor) (i : Nat) : Option Bytes := p.pieces.get? i

/-- Index of the first occurrence of a piece in the vocabulary list (0 when
absent, like the unknown id). -/
def pieceIndex (q : Bytes) : List Bytes → Nat
  | [] => 0
  | r :: rs => if r = q then 0 else pieceIndex q rs + 1

/-- Modelled from the spec: `PieceToId` maps a piece to its vocabulary
index, and any out-of-vocabulary piece to the unknown id 0. -/
def PieceToId (p : Processor) (q : Bytes) : Nat :=
  if q ∈ p.pieces then pieceIndex q p.pieces else 0

end Processor

theorem get?_pieceIndex (q : Bytes) (l : List Bytes) (h : q ∈ l) :
    l.get? (Processor.pieceIndex q l) = some q := by
  induction l with
  | nil => cases h
  | cons r rs ih =>
    rw [Processor.pieceIndex]
    by_cases hrq : r = q
    · rw [if_pos hrq, hrq]
      rfl
    · rw [if_neg hrq]
      have hq : q ∈ rs := by
        rcases List.mem_cons.mp h with h1 | h1
        · exact absurd h1.symm hrq
        · exact h1
      exact ih hq

theorem pieceIndex_get (l : List Bytes) (hnd : l.Nodup) (i : Nat)
    (h : i < l.length) : Processor.pieceIndex (l.get ⟨i, h⟩) l = i := by
  induction l generalizing i with
  | nil => cases h
  | cons r rs ih =>
    rcases List.nodup_cons.mp hnd with ⟨hr, hnd'⟩
    cases i with
    | zero => simp [Processor.pieceIndex]
    | succ j =>
      have hg : (r :: rs).get ⟨j + 1, h⟩ = rs.get ⟨j, Nat.lt_of_succ_lt_succ h⟩ :=
        rfl
      rw [hg, Processor.pieceIndex]
      have hne : r ≠ rs.get ⟨j, Nat.lt_of_succ_lt_succ h⟩ := by
        intro hcontra
        exact hr (hcontra ▸ List.get_mem rs j _)
      rw [if_neg hne, ih hnd' j (Nat.lt_of_succ_lt_succ h)]

theorem pieceIndex_lt_length (q : Bytes) (l : List Bytes) (h : q ∈ l) :
    Processor.pieceIndex q l < l.length := by
  induction l with
  | nil => cases h
  | cons r rs ih =>
    rw [Processor.pieceIndex]
    by_cases hrq : r = q
    · rw [if_pos hrq]
      exact Nat.succ_pos _
    · rw [if_neg hrq]
      have hq : q ∈ rs := by
        rcases List.mem_cons.mp h with h1 | h1
        · exact absurd h1.symm hrq
        · exact h1
      exact Nat.succ_lt_succ (ih hq)

/-- Pick the longest byte string among the candidates, defaulting to `d`
(ties keep the earlier candidate). -/
def chooseLongest (d : Bytes) (cs : List Bytes) : Bytes :=
  cs.foldl (fun acc q => if acc.length < q.length then q else acc) d

theorem chooseLongest_mem (d : Bytes) (cs : List Bytes) :
    chooseLongest d cs ∈ cs ∨ chooseLongest d cs = d := by
  induction cs generalizing d with
  | nil => exact Or.inr rfl
  | cons q cs ih =>
    have hstep : chooseLongest d (q :: cs)
        = chooseLongest (if d.length < q.length then q else d) cs := rfl
    rw [hstep]
    rcases ih (if d.length < q.length then q else d) with h | h
    · exact Or.inl (List.mem_cons_of_mem _ h)
    · rw [h]
      by_cases hlt : d.length < q.length
      · rw [if_pos hlt]
        exact Or.inl (List.mem_cons_self _ _)
      · rw [if_neg hlt]
        exact Or.inr rfl

/-- Modelled from the spec: the lattice candidates at a given position are
the vocabulary pieces that are prefixes of the remaining input. -/
def candidates (p : Processor) (full : Bytes) : List Bytes :=
  p.pieces.filter (fun q => decide (q <+: full))

theorem candidates_subset (p : Processor) (full : Bytes) :
    ∀ q ∈ candidates p full, q ∈ p.pieces := by
  intro q hq
  exact (List.mem_filter.mp hq).1

theorem candidates_isPre (p : Processor) (full : Bytes) :
    ∀ q ∈ candidates p full, q <+: full := by
  intro q hq
  exact of_decide_eq_true (List.mem_filter.mp hq).2

theorem candidates_ne_nil (p : Processor) (full : Bytes) :
    ∀ q ∈ candidates p full, q ≠ [] := by
  intro q hq h
  exact p.noNil (h ▸ candidates_subset p full q hq)

/-- The piece the greedy (deterministic, non-sampling) segmenter emits at
the head of a non-empty input: the longest matching vocabulary piece,
falling back to the single head byte. -/
def greedyPiece (p : Processor) (b : Nat) (rest : Bytes) : Bytes :=
  chooseLongest [b] (candidates p (b :: rest))

theorem greedyPiece_ne_nil (p : Processor) (b : Nat) (rest : Bytes) :
    greedyPiece p b rest ≠ [] := by
  rcases chooseLongest_mem [b] (candidates p (b :: rest)) with h | h
  · exact candidates_ne_nil p (b :: rest) _ h
  · rw [greedyPiece, h]
    simp

theorem greedyPiece_isPre (p : Processor) (b : Nat) (rest : Bytes) :
    greedyPiece p b rest <+: b :: rest := by
  rcases chooseLongest_mem [b] (candidates p (b :: rest)) with h | h
  · exact candidates_isPre p (b :: rest) _ h
  · rw [greedyPiece, h]
    exact ⟨rest, rfl⟩

theorem greedyPiece_mem (p : Processor) (b : Nat) (rest : Bytes)
    (hb : b < 256) : greedyPiece p b rest ∈ p.pieces := by
  rcases chooseLongest_mem [b] (candidates p (b :: rest)) with h | h
  · exact candidates_subset p (b :: rest) _ h
  · rw [greedyPiece, h]
    exact p.byteCover b hb

theorem greedyPiece_len_pos (p : Processor) (b : Nat) (rest : Bytes) :
    0 < (greedyPiece p b rest).length :=
  List.length_pos.mpr (greedyPiece_ne_nil p b rest)

namespace Processor

/-- Modelled from the spec: `EncodeAsPieces` under default settings (no
sampling) deterministically segments the input into vocabulary pieces by
repeated greedy longest match, with single-byte fallback. -/
def EncodeAsPieces (p : Processor) : Bytes → List Bytes
  | [] => []
  | b :: rest =>
    greedyPiece p b rest ::
      p.EncodeAsPieces ((b :: rest).drop (greedyPiece p b rest).length)
termination_by t => t.length
decreasing_by
  simp only [List.length_drop, List.length_cons]
  exact Nat.sub_lt (Nat.succ_pos _) (greedyPiece_len_pos p b rest)

/-- Modelled from the spec: `DecodePieces` concatenates the pieces back
into the original byte string (detokenization). -/
def DecodePieces (_p : Processor) (qs : List Bytes) : Bytes := qs.flatten

/-- Modelled from the spec: `EncodeAsIds` is `EncodeAsPieces` followed by
`PieceToId` on every piece. -/
def EncodeAsIds (p : Processor) (t : Bytes) : List Nat :=
  (p.EncodeAsPieces t).map p.PieceToId

/-- Maps each id through the vocabulary; fails if any id is out of
range. -/
def idPieces (p : Processor) : List Nat → Option (List Bytes)
  | [] => some []
  | i :: is =>
    match p.pieces.get? i, p.idPieces is with
    | some q, some qs => some (q :: qs)
    | _, _ => none

/-- Modelled from the spec: `DecodeIds` maps each id back to its piece and
concatenates; any out-of-range id raises an error (`none`). -/
def DecodeIds (p : Processor) (ids : List Nat) : Option Bytes :=
  (p.idPieces ids).map List.flatten

end Processor

theorem encodeAsPieces_flatten (p : Processor) (t : Bytes) :
    (p.EncodeAsPieces t).flatten = t := by
  induction t using Processor.EncodeAsPieces.induct p with
  | case1 => simp [Processor.EncodeAsPieces]
  | case2 b rest ih =>
    rw [Processor.EncodeAsPieces, List.flatten_cons, ih]
    rcases greedyPiece_isPre p b rest with ⟨t2, ht2⟩
    conv_rhs => rw [← ht2]
    rw [← ht2, List.drop_left]

theorem validBytes_drop (t : Bytes) (k : Nat) (h : ValidBytes t) :
    ValidBytes (t.drop k) :=
  fun b hb => h b (List.drop_subset k t hb)

theorem encodeAsPieces_mem (p : Processor) (t : Bytes) :
    ValidBytes t → ∀ q ∈ p.EncodeAsPieces t, q ∈ p.pieces := by
  induction t using Processor.EncodeAsPieces.induct p with
  | case1 =>
    intro _ q hq
    simp [Processor.EncodeAsPieces] at hq
  | case2 b rest ih =>
    intro h q hq
    rw [Processor.EncodeAsPieces] at hq
    rcases List.mem_cons.mp hq with h1 | h1
    · exact h1 ▸ greedyPiece_mem p b rest (h b (List.mem_cons_self _ _))
    · exact ih (validBytes_drop _ _ h) q h1

theorem idPieces_map (p : Processor) (qs : List Bytes)
    (h : ∀ q ∈ qs, q ∈ p.pieces) :
    p.idPieces (qs.map p.PieceToId) = some qs := by
  induction qs with
  | nil => rfl
  | cons q qs ih =>
    have hq : q ∈ p.pieces := h q (List.mem_cons_self _ _)
    have h1 : p.PieceToId q = Processor.pieceIndex q p.pieces := if_pos hq
    rw [List.map_cons]
    show (match p.pieces.get? (p.PieceToId q),
        p.idPieces (qs.map p.PieceToId) with
      | some r, some rs => some (r :: rs)
      | _, _ => none) = some (q :: qs)
    rw [h1, get?_pieceIndex q p.pieces hq,
      ih (fun r hr => h r (List.mem_cons_of_mem _ hr))]

/-- C1: for every loaded processor and every input text, encoding under
default settings (no sampling) followed by decoding returns the original
text, in both the piece and the id representation. -/
theorem C1_roundtrip (p : Processor) (t : Bytes) (h : ValidBytes t) :
    p.DecodePieces (p.EncodeAsPieces t) = t ∧
      p.DecodeIds (p.EncodeAsIds t) = some t := by
  refine ⟨encodeAsPieces_flatten p t, ?_⟩
  rw [Processor.DecodeIds, Processor.EncodeAsIds,
    idPieces_map p _ (encodeAsPieces_mem p t h), Option.map_some']
  rw [encodeAsPieces_flatten p t]

/-- The 256 single-byte fallback pieces every loaded model carries. -/
def byteSingles : List Bytes := (List.range 256).map (fun b => [b])

theorem byteSingles_nodup : byteSingles.Nodup := by
  refine List.Nodup.map ?_ (List.nodup_range 256)
  intro a b hab
  simpa using hab

theorem mem_byteSingles_length (q : Bytes) (h : q ∈ byteSingles) :
    q.length = 1 := by
  rcases List.mem_map.mp h with ⟨b, _, rfl⟩
  rfl

theorem byteSingles_cover (b : Nat) (hb : b < 256) : [b] ∈ byteSingles :=
  List.mem_map.mpr ⟨b, List.mem_range.mpr hb, rfl⟩

/-- Builds a loaded processor from a list of extra multi-byte pieces,
keeping the distinct ones of length at least two on top of the 256
single-byte fallback pieces. -/
def mkProc (extras : List Bytes) : Processor where
  pieces := byteSingles ++ extras.dedup.filter (fun q => 2 ≤ q.length)
  scoreFn := fun _ => 0
  typeFn := fun _ => SPieceType.normal
  nodup := by
    rw [List.nodup_append]
    refine ⟨byteSingles_nodup, List.Nodup.filter _ (List.nodup_dedup extras), ?_⟩
    intro q hq hq'
    have h1 := mem_byteSingles_length q hq
    have h2 := (List.mem_filter.mp hq').2
    simp only [decide_eq_true_eq] at h2
    omega
  noNil := by
    intro h
    rcases List.mem_append.mp h with h1 | h1
    · exact absurd (mem_byteSingles_length [] h1) (by simp)
    · have h2 := (List.mem_filter.mp h1).2
      simp at h2
  byteCover := fun b hb => List.mem_append_left _ (byteSingles_cover b hb)

/-- A concrete loaded processor used as evaluation witness: the byte
fallback vocabulary extended with the pieces "he" and "llo". -/
def testProcessor : Processor := mkProc [[104, 101], [108, 108, 111]]

/-- The byte string of the text "hello". -/
def helloBytes : Bytes := [104, 101, 108, 108, 111]

/-- Witness for C1: the round trip evaluated on a concrete processor and
the concrete text "hello". -/
theorem C1_roundtrip_witness :
    ValidBytes helloBytes ∧
      (testProcessor.DecodePieces (testProcessor.EncodeAsPieces helloBytes)
          = helloBytes ∧
        testProcessor.DecodeIds (testProcessor.EncodeAsIds helloBytes)
          = some helloBytes) :=
  ⟨by decide, C1_roundtrip testProcessor helloBytes (by decide)⟩

/-- C2: for every loaded processor, `IdToPiece` and `PieceToId` are mutual
inverses over the valid index range `[0, vocab_size)`:
`PieceToId (IdToPiece i) = i` for every valid index `i`, and
`IdToPiece (PieceToId q) = q` for every vocabulary piece `q`. -/
theorem C2_piece_id_inverse (p : Processor) (i : Nat)
    (h : i < p.GetPieceSize) :
    (p.IdToPiece i).map p.PieceToId = some i ∧
      ∀ q ∈ p.pieces, p.IdToPiece (p.PieceToId q) = some q := by
  constructor
  · rw [Processor.IdToPiece, List.get?_eq_get h, Option.map_some']
    have hmem : p.pieces.get ⟨i, h⟩ ∈ p.pieces := List.get_mem _ _ _
    rw [Processor.PieceToId, if_pos hmem, pieceIndex_get p.pieces p.nodup i h]
  · intro q hq
    rw [Processor.PieceToId, if_pos hq, Processor.IdToPiece,
      get?_pieceIndex q p.pieces hq]

/-- Witness for C2: the inverse laws evaluated at index 104 of a concrete
processor. -/
theorem C2_piece_id_inverse_witness :
    104 < testProcessor.GetPieceSize ∧
      ((testProcessor.IdToPiece 104).map testProcessor.PieceToId = some 104 ∧
        ∀ q ∈ testProcessor.pieces,
          testProcessor.IdToPiece (testProcessor.PieceToId q) = some q) :=
  ⟨by decide, C2_piece_id_inverse testProcessor 104 (by decide)⟩

/-- One piece record of the `SentencePieceText` protocol message: the
piece, its id, its surface form and its byte span in the input text. -/
structure SPTPiece where
  piece : Bytes
  id : Nat
  surface : Bytes
  begin_ : Nat
  end_ : Nat
deriving DecidableEq

/-- Modelled from the spec: the immutable in-memory protocol output
(`ImmutableSentencePieceText`), holding the input text and the piece
records. -/
structure SentencePieceText where
  text : Bytes
  pieces : List SPTPiece
deriving DecidableEq

/-- Modelled from the spec: the immutable nbest protocol output
(`ImmutableNBestSentencePieceText`), holding one `SentencePieceText` per
candidate segmentation. -/
structure NBestSentencePieceText where
  nbests : List SentencePieceText
deriving DecidableEq

/-- Wire encoding of an unsigned integer field. -/
def encNat (n : Nat) : List Nat := [n]

/-- Wire encoding of a length-delimited bytes field. -/
def encBytes (t : Bytes) : List Nat := t.length :: t

/-- Wire encoding of one piece record. -/
def encSPTPiece (x : SPTPiece) : List Nat :=
  encBytes x.piece ++ encNat x.id ++ encBytes x.surface ++
    encNat x.begin_ ++ encNat x.end_

/-- Modelled from the spec: `SerializeAsString` of the immutable protocol
message, visiting the stored structure field by field. -/
def SentencePieceText.SerializeAsString (s : SentencePieceText) : List Nat :=
  encBytes s.text ++ encNat s.pieces.length ++
    (s.pieces.map encSPTPiece).flatten

/-- Modelled from the spec: `SerializeAsString` of the immutable nbest
protocol message. -/
def NBestSentencePieceText.SerializeAsString
    (s : NBestSentencePieceText) : List Nat :=
  encNat s.nbests.length ++
    (s.nbests.map SentencePieceText.SerializeAsString).flatten

/-- Builds the piece records of a segmentation, tracking byte offsets. -/
def withOffsets (p : Processor) (pos : Nat) : List Bytes → List SPTPiece
  | [] => []
  | q :: qs =>
    { piece := q, id := p.PieceToId q, surface := q,
      begin_ := pos, end_ := pos + q.length } ::
      withOffsets p (pos + q.length) qs

/-- The immutable protocol message of a segmentation of `text`. -/
def sptOf (p : Processor) (text : Bytes) (segs : List Bytes) :
    SentencePieceText :=
  { text := text, pieces := withOffsets p 0 segs }

/-- Modelled from the spec: the native serialized-proto output path writes
the wire bytes of the piece records directly while walking the
segmentation, without materializing the in-memory message. -/
def serializePiecesFused (p : Processor) (pos : Nat) : List Bytes → List Nat
  | [] => []
  | q :: qs =>
    encBytes q ++ encNat (p.PieceToId q) ++ encBytes q ++
      encNat pos ++ encNat (pos + q.length) ++
      serializePiecesFused p (pos + q.length) qs

/-- The fused serialized-proto bytes of a segmentation of `text`. -/
def serializedOf (p : Processor) (text : Bytes) (segs : List Bytes) :
    List Nat :=
  encBytes text ++ encNat segs.length ++ serializePiecesFused p 0 segs

theorem serializePiecesFused_eq (p : Processor) (qs : List Bytes)
    (pos : Nat) :
    serializePiecesFused p pos qs
      = ((withOffsets p pos qs).map encSPTPiece).flatten := by
  induction qs generalizing pos with
  | nil => rfl
  | cons q qs ih =>
    rw [serializePiecesFused, withOffsets, List.map_cons, List.flatten_cons,
      ih (pos + q.length)]
    simp [encSPTPiece, List.append_assoc]

theorem serializedOf_eq (p : Processor) (text : Bytes) (segs : List Bytes) :
    serializedOf p text segs = (sptOf p text segs).SerializeAsString := by
  rw [serializedOf, SentencePieceText.SerializeAsString, sptOf,
    serializePiecesFused_eq]
  have hlen : ∀ (pos : Nat) (qs : List Bytes),
      (withOffsets p pos qs).length = qs.length := by
    intro pos qs
    induction qs generalizing pos with
    | nil => rfl
    | cons q qs ih => rw [withOffsets, List.length_cons, List.length_cons, ih]
  rw [hlen]

namespace Processor

/-- Modelled from the spec: the id-consuming accessors take an arbitrary
(possibly negative) integer index from Python and raise an error for any
index outside `[0, vocab_size)`.  `IdToPieceChecked` is the checked entry
of `IdToPiece`. -/
def IdToPieceChecked (p : Processor) (i : Int) : Option Bytes :=
  if 0 ≤ i ∧ i < (p.GetPieceSize : Int) then p.pieces.get? i.toNat else none

/-- Modelled from the spec: `GetScore`, failing outside the valid index
range. -/
def GetScore (p : Processor) (i : Int) : Option Int :=
  if 0 ≤ i ∧ i < (p.GetPieceSize : Int) then some (p.scoreFn i.toNat)
  else none

/-- Modelled from the spec: `IsUnknown`, failing outside the valid index
range. -/
def IsUnknown (p : Processor) (i : Int) : Option Bool :=
  if 0 ≤ i ∧ i < (p.GetPieceSize : Int) then
    some (p.typeFn i.toNat = SPieceType.unknown)
  else none

/-- Modelled from the spec: `IsControl`, failing outside the valid index
range. -/
def IsControl (p : Processor) (i : Int) : Option Bool :=
  if 0 ≤ i ∧ i < (p.GetPieceSize : Int) then
    some (p.typeFn i.toNat = SPieceType.control)
  else none

/-- Modelled from the spec: `IsUnused`, failing outside the valid index
range. -/
def IsUnused (p : Processor) (i : Int) : Option Bool :=
  if 0 ≤ i ∧ i < (p.GetPieceSize : Int) then
    some (p.typeFn i.toNat = SPieceType.unused)
  else none

/-- Modelled from the spec: `IsByte`, failing outside the valid index
range. -/
def IsByte (p : Processor) (i : Int) : Option Bool :=
  if 0 ≤ i ∧ i < (p.GetPieceSize : Int) then
    some (p.typeFn i.toNat = SPieceType.byte)
  else none

/-- Checked per-id lookup over a whole id list; fails as soon as one id is
out of range. -/
def idPiecesChecked (p : Processor) : List Int → Option (List Bytes)
  | [] => some []
  | i :: is =>
    match p.IdToPieceChecked i, p.idPiecesChecked is with
    | some q, some qs => some (q :: qs)
    | _, _ => none

/-- Modelled from the spec: `DecodeIds` on arbitrary integer ids, raising
an error if any id is outside `[0, vocab_size)`. -/
def DecodeIdsChecked (p : Processor) (ids : List Int) : Option Bytes :=
  (p.idPiecesChecked ids).map List.flatten

/-- Modelled from the spec: `DecodeIdsAsSerializedProto` on arbitrary
integer ids, raising an error if any id is outside `[0, vocab_size)`. -/
def DecodeIdsAsSerializedProtoChecked (p : Processor) (ids : List Int) :
    Option (List Nat) :=
  (p.idPiecesChecked ids).map (fun qs => serializedOf p qs.flatten qs)

end Processor

theorem idToPieceChecked_isSome (p : Processor) (i : Int) :
    (p.IdToPieceChecked i).isSome
      ↔ 0 ≤ i ∧ i < (p.GetPieceSize : Int) := by
  rw [Processor.IdToPieceChecked]
  by_cases h : 0 ≤ i ∧ i < (p.GetPieceSize : Int)
  · rw [if_pos h]
    have hlt : i.toNat < p.pieces.length := by
      have := h.1
      have := h.2
      rw [Processor.GetPieceSize] at *
      omega
    rw [List.get?_eq_get hlt]
    simp [h]
  · rw [if_neg h]
    simp [h]

theorem idPiecesChecked_isSome (p : Processor) (ids : List Int) :
    (p.idPiecesChecked ids).isSome
      ↔ ∀ i ∈ ids, 0 ≤ i ∧ i < (p.GetPieceSize : Int) := by
  induction ids with
  | nil => simp [Processor.idPiecesChecked]
  | cons i is ih =>
    show (match p.IdToPieceChecked i, p.idPiecesChecked is with
      | some q, some qs => some (q :: qs)
      | _, _ => none).isSome = true ↔ _
    constructor
    · intro h
      rcases hi : p.IdToPieceChecked i with _ | q
      · rw [hi] at h
        simp at h
      · rcases his : p.idPiecesChecked is with _ | qs
        · rw [hi, his] at h
          simp at h
        · intro j hj
          rcases List.mem_cons.mp hj with h1 | h1
          · have := (idToPieceChecked_isSome p i).mp (by rw [hi]; rfl)
            exact h1 ▸ this
          · exact (ih.mp (by rw [his]; rfl)) j h1
    · intro h
      have hi := (idToPieceChecked_isSome p i).mpr (h i (List.mem_cons_self _ _))
      have his := ih.mpr (fun j hj => h j (List.mem_cons_of_mem _ hj))
      rcases Option.isSome_iff_exists.mp hi with ⟨q, hq⟩
      rcases Option.isSome_iff_exists.mp his with ⟨qs, hqs⟩
      rw [hq, hqs]
      rfl

/-- C3: every id-consuming operation (`IdToPiece`, `GetScore`,
`IsUnknown`, `IsControl`, `IsUnused`, `IsByte`, `DecodeIds`,
`DecodeIdsAsSerializedProto`) succeeds exactly on indices inside
`[0, vocab_size)` and raises an error on any index outside the range. -/
theorem C3_valid_range (p : Processor) (i : Int) (ids : List Int) :
    ((p.IdToPieceChecked i).isSome ↔ 0 ≤ i ∧ i < (p.GetPieceSize : Int)) ∧
    ((p.GetScore i).isSome ↔ 0 ≤ i ∧ i < (p.GetPieceSize : Int)) ∧
    ((p.IsUnknown i).isSome ↔ 0 ≤ i ∧ i < (p.GetPieceSize : Int)) ∧
    ((p.IsControl i).isSome ↔ 0 ≤ i ∧ i < (p.GetPieceSize : Int)) ∧
    ((p.IsUnused i).isSome ↔ 0 ≤ i ∧ i < (p.GetPieceSize : Int)) ∧
    ((p.IsByte i).isSome ↔ 0 ≤ i ∧ i < (p.GetPieceSize : Int)) ∧
    ((p.DecodeIdsChecked ids).isSome
      ↔ ∀ j ∈ ids, 0 ≤ j ∧ j < (p.GetPieceSize : Int)) ∧
    ((p.DecodeIdsAsSerializedProtoChecked ids).isSome
      ↔ ∀ j ∈ ids, 0 ≤ j ∧ j < (p.GetPieceSize : Int)) := by
  refine ⟨idToPieceChecked_isSome p i, ?_, ?_, ?_, ?_, ?_, ?_, ?_⟩
  · rw [Processor.GetScore]
    by_cases h : 0 ≤ i ∧ i < (p.GetPieceSize : Int) <;> simp [h]
  · rw [Processor.IsUnknown]
    by_cases h : 0 ≤ i ∧ i < (p.GetPieceSize : Int) <;> simp [h]
  · rw [Processor.IsControl]
    by_cases h : 0 ≤ i ∧ i < (p.GetPieceSize : Int) <;> simp [h]
  · rw [Processor.IsUnused]
    by_cases h : 0 ≤ i ∧ i < (p.GetPieceSize : Int) <;> simp [h]
  · rw [Processor.IsByte]
    by_cases h : 0 ≤ i ∧ i < (p.GetPieceSize : Int) <;> simp [h]
  · rw [Processor.DecodeIdsChecked, Option.isSome_map']
    exact idPiecesChecked_isSome p ids
  · rw [Processor.DecodeIdsAsSerializedProtoChecked, Option.isSome_map']
    exact idPiecesChecked_isSome p ids

/-- A stream of random draws with first value `k` and tail `c`. -/
def consC (k : Nat) (c : Nat → Nat) : Nat → Nat := fun n =>
  match n with
  | 0 => k
  | m + 1 => c m

/-- Drops the first random draw of a stream. -/
def shiftC (c : Nat → Nat) : Nat → Nat := fun n => c (n + 1)

theorem shiftC_consC (k : Nat) (c : Nat → Nat) : shiftC (consC k c) = c :=
  funext (fun _ => rfl)

/-- The piece a sampling-enabled encode emits at the head of a non-empty
input: a lattice candidate selected by the random draw `k`, with
single-byte fallback when no vocabulary piece matches. -/
def samplePiece (p : Processor) (k : Nat) (b : Nat) (rest : Bytes) :
    Bytes :=
  if h : 0 < (candidates p (b :: rest)).length then
    (candidates p (b :: rest)).get
      ⟨k % (candidates p (b :: rest)).length, Nat.mod_lt _ h⟩
  else [b]

theorem samplePiece_ne_nil (p : Processor) (k : Nat) (b : Nat)
    (rest : Bytes) : samplePiece p k b rest ≠ [] := by
  rw [samplePiece]
  by_cases h : 0 < (candidates p (b :: rest)).length
  · rw [dif_pos h]
    exact candidates_ne_nil p (b :: rest) _ (List.get_mem _ _ _)
  · rw [dif_neg h]
    simp

theorem samplePiece_isPre (p : Processor) (k : Nat) (b : Nat)
    (rest : Bytes) : samplePiece p k b rest <+: b :: rest := by
  rw [samplePiece]
  by_cases h : 0 < (candidates p (b :: rest)).length
  · rw [dif_pos h]
    exact candidates_isPre p (b :: rest) _ (List.get_mem _ _ _)
  · rw [dif_neg h]
    exact ⟨rest, rfl⟩

theorem samplePiece_mem (p : Processor) (k : Nat) (b : Nat) (rest : Bytes)
    (hb : b < 256) : samplePiece p k b rest ∈ p.pieces := by
  rw [samplePiece]
  by_cases h : 0 < (candidates p (b :: rest)).length
  · rw [dif_pos h]
    exact candidates_subset p (b :: rest) _ (List.get_mem _ _ _)
  · rw [dif_neg h]
    exact p.byteCover b hb

theorem samplePiece_len_pos (p : Processor) (k : Nat) (b : Nat)
    (rest : Bytes) : 0 < (samplePiece p k b rest).length :=
  List.length_pos.mpr (samplePiece_ne_nil p k b rest)

namespace Processor

/-- Modelled from the spec: `SampleEncodeAsPieces` (and `encode` with
`enable_sampling=True`) segments the input by drawing one lattice
candidate per step from the explicit random stream `c`; the `nbest_size`
and `alpha` parameters shape the draw distribution and are absorbed into
the stream. -/
def SampleEncodeAsPieces (p : Processor) (c : Nat → Nat) :
    Bytes → List Bytes
  | [] => []
  | b :: rest =>
    samplePiece p (c 0) b rest ::
      p.SampleEncodeAsPieces (shiftC c)
        ((b :: rest).drop (samplePiece p (c 0) b rest).length)
termination_by t => t.length
decreasing_by
  simp only [List.length_drop, List.length_cons]
  exact Nat.sub_lt (Nat.succ_pos _) (samplePiece_len_pos p (c 0) b rest)

/-- Modelled from the spec: `SampleEncodeAsIds` is the sampled
segmentation mapped through `PieceToId`. -/
def SampleEncodeAsIds (p : Processor) (c : Nat → Nat) (t : Bytes) :
    List Nat :=
  (p.SampleEncodeAsPieces c t).map p.PieceToId

end Processor

/-- Whether the segmentation lattice of a text offers a choice point: some
position reached by zero draws has at least two candidates. -/
def multiSeg (p : Processor) : Bytes → Bool
  | [] => false
  | b :: rest =>
    decide (2 ≤ (candidates p (b :: rest)).length) ||
      multiSeg p ((b :: rest).drop (samplePiece p 0 b rest).length)
termination_by t => t.length
decreasing_by
  simp only [List.length_drop, List.length_cons]
  exact Nat.sub_lt (Nat.succ_pos _) (samplePiece_len_pos p 0 b rest)

theorem sampleEncode_flatten (p : Processor) (c : Nat → Nat) (t : Bytes) :
    (p.SampleEncodeAsPieces c t).flatten = t := by
  induction c, t using Processor.SampleEncodeAsPieces.induct p with
  | case1 c =>
    rw [Processor.SampleEncodeAsPieces]
    rfl
  | case2 c b rest ih =>
    rw [Processor.SampleEncodeAsPieces, List.flatten_cons, ih]
    rcases samplePiece_isPre p (c 0) b rest with ⟨t2, ht2⟩
    conv_rhs => rw [← ht2]
    rw [← ht2, List.drop_left]

theorem sampleEncode_mem (p : Processor) (c : Nat → Nat) (t : Bytes) :
    ValidBytes t → ∀ q ∈ p.SampleEncodeAsPieces c t, q ∈ p.pieces := by
  induction c, t using Processor.SampleEncodeAsPieces.induct p with
  | case1 c =>
    intro _ q hq
    rw [Processor.SampleEncodeAsPieces] at hq
    cases hq
  | case2 c b rest ih =>
    intro h q hq
    rw [Processor.SampleEncodeAsPieces] at hq
    rcases List.mem_cons.mp hq with h1 | h1
    · exact h1 ▸ samplePiece_mem p (c 0) b rest (h b (List.mem_cons_self _ _))
    · exact ih (validBytes_drop _ _ h) q h1

theorem candidates_nodup (p : Processor) (full : Bytes) :
    (candidates p full).Nodup :=
  List.Nodup.filter _ p.nodup

theorem sample_head (p : Processor) (c : Nat → Nat) (b : Nat)
    (rest : Bytes) :
    p.SampleEncodeAsPieces c (b :: rest)
      = samplePiece p (c 0) b rest ::
          p.SampleEncodeAsPieces (shiftC c)
            ((b :: rest).drop (samplePiece p (c 0) b rest).length) := by
  rw [Processor.SampleEncodeAsPieces]

theorem samplePiece_zero_one (p : Processor) (b : Nat) (rest : Bytes)
    (hlen : 2 ≤ (candidates p (b :: rest)).length) :
    samplePiece p 0 b rest ≠ samplePiece p 1 b rest := by
  have hpos : 0 < (candidates p (b :: rest)).length := by omega
  rw [samplePiece, samplePiece, dif_pos hpos, dif_pos hpos]
  intro hEq
  have hij := ((candidates_nodup p (b :: rest)).get_inj_iff).mp hEq
  have hval := Fin.val_eq_of_eq hij
  simp only [Nat.zero_mod] at hval
  rw [Nat.mod_eq_of_lt (by omega : 1 < (candidates p (b :: rest)).length)]
    at hval
  omega

theorem multiSeg_distinct (p : Processor) (t : Bytes) :
    multiSeg p t = true →
      ∃ c1 c2 : Nat → Nat,
        p.SampleEncodeAsPieces c1 t ≠ p.SampleEncodeAsPieces c2 t := by
  induction t using multiSeg.induct p with
  | case1 =>
    intro h
    rw [multiSeg] at h
    cases h
  | case2 b rest ih =>
    intro h
    rw [multiSeg] at h
    rcases (Bool.or_eq_true _ _).mp h with h1 | h1
    · have hlen : 2 ≤ (candidates p (b :: rest)).length :=
        of_decide_eq_true h1
      refine ⟨fun _ => 0, consC 1 (fun _ => 0), ?_⟩
      rw [sample_head, sample_head]
      intro hEq
      exact samplePiece_zero_one p b rest hlen
        ((List.cons.injEq _ _ _ _).mp hEq).1
    · rcases ih h1 with ⟨c1, c2, hne⟩
      refine ⟨consC 0 c1, consC 0 c2, ?_⟩
      rw [sample_head, sample_head]
      intro hEq
      have htails := ((List.cons.injEq _ _ _ _).mp hEq).2
      rw [shiftC_consC, shiftC_consC] at htails
      exact hne htails

theorem get_of_singleton (q : Bytes) (l : List Bytes) (hl : l = [q])
    (i : Fin l.length) : l.get i = q := by
  subst hl
  match i with
  | ⟨0, _⟩ => rfl

theorem samplePiece_singleton (p : Processor) (k b : Nat) (rest : Bytes)
    (q : Bytes) (h : candidates p (b :: rest) = [q]) :
    samplePiece p k b rest = q := by
  rw [samplePiece]
  have hpos : 0 < (candidates p (b :: rest)).length := by
    rw [h]
    simp
  rw [dif_pos hpos]
  exact get_of_singleton q _ h _

/-- C5 (amended): every sampling-enabled encode decodes back to the
original text, in both representations; and whenever the text's
segmentation lattice offers a choice point (`multiSeg`), different random
trials produce more than one distinct token sequence.  (As originally
stated — distinct outputs for every processor and text — the claim fails
on texts with a single possible segmentation; see the counterexample.) -/
theorem C5_sampling_amended (p : Processor) (t : Bytes)
    (h : ValidBytes t) :
    (∀ c : Nat → Nat,
        p.DecodePieces (p.SampleEncodeAsPieces c t) = t ∧
          p.DecodeIds (p.SampleEncodeAsIds c t) = some t) ∧
      (multiSeg p t = true →
        ∃ c1 c2 : Nat → Nat,
          p.SampleEncodeAsPieces c1 t ≠ p.SampleEncodeAsPieces c2 t) := by
  constructor
  · intro c
    refine ⟨sampleEncode_flatten p c t, ?_⟩
    rw [Processor.DecodeIds, Processor.SampleEncodeAsIds,
      idPieces_map p _ (sampleEncode_mem p c t h), Option.map_some']
    rw [sampleEncode_flatten p c t]
  · exact multiSeg_distinct p t

theorem multiSeg_hello : multiSeg testProcessor helloBytes = true := by
  show multiSeg testProcessor (104 :: [101, 108, 108, 111]) = true
  rw [multiSeg]
  have h2 : 2 ≤ (candidates testProcessor
      (104 :: [101, 108, 108, 111])).length := by decide
  simp [h2]

/-- Witness for the amended C5, on a concrete processor and the text
"hello", whose lattice has a choice point. -/
theorem C5_sampling_amended_witness :
    ValidBytes helloBytes ∧ multiSeg testProcessor helloBytes = true ∧
      ((∀ c : Nat → Nat,
          testProcessor.DecodePieces
              (testProcessor.SampleEncodeAsPieces c helloBytes)
            = helloBytes ∧
          testProcessor.DecodeIds
              (testProcessor.SampleEncodeAsIds c helloBytes)
            = some helloBytes) ∧
        (multiSeg testProcessor helloBytes = true →
          ∃ c1 c2 : Nat → Nat,
            testProcessor.SampleEncodeAsPieces c1 helloBytes
              ≠ testProcessor.SampleEncodeAsPieces c2 helloBytes)) :=
  ⟨by decide, multiSeg_hello,
    C5_sampling_amended testProcessor helloBytes (by decide)⟩

/-- Counterexample to C5 as stated: on the single-byte text "h" the
lattice of the concrete processor has exactly one candidate, so every
sampled encode — over any number of trials — returns the same single
token sequence, never more than one distinct output. -/
theorem C5_sampling_counterexample :
    (fun c : Nat → Nat => testProcessor.SampleEncodeAsPieces c [104])
      = (fun _ => [[104]]) := by
  funext c
  rw [sample_head,
    samplePiece_singleton testProcessor (c 0) 104 [] [104] (by decide)]
  simp [Processor.SampleEncodeAsPieces]

/-- Output type selector of the Python `encode` / `decode` family
(`out_type`): pieces (str), ids (int), serialized proto, immutable
proto. -/
inductive OutType where
  | pieces
  | ids
  | serializedProto
  | immutableProto
deriving DecidableEq

/-- The output of `encode` for each `out_type`. -/
inductive EncodeOutput where
  | pieces (qs : List Bytes)
  | ids (is : List Nat)
  | proto (s : SentencePieceText)
  | serialized (bs : List Nat)
deriving DecidableEq

/-- The all-zero random stream (never consulted by non-sampling
encodes). -/
def zeroC : Nat → Nat := fun _ => 0

namespace Processor

/-- Modelled from the spec: the unified `encode` entry point.  The
segmentation is sampled from the random stream `c` when
`enable_sampling` is set and greedy (deterministic) otherwise, then
shaped according to `out_type`. -/
def encode (p : Processor) (ot : OutType) (enableSampling : Bool)
    (c : Nat → Nat) (t : Bytes) : EncodeOutput :=
  match ot with
  | .pieces => .pieces
      (if enableSampling then p.SampleEncodeAsPieces c t
       else p.EncodeAsPieces t)
  | .ids => .ids
      (if enableSampling then p.SampleEncodeAsIds c t
       else p.EncodeAsIds t)
  | .immutableProto => .proto (sptOf p t
      (if enableSampling then p.SampleEncodeAsPieces c t
       else p.EncodeAsPieces t))
  | .serializedProto => .serialized (serializedOf p t
      (if enableSampling then p.SampleEncodeAsPieces c t
       else p.EncodeAsPieces t))

end Processor

/-- C4: for every loaded processor, text and out_type, two non-sampling
encodes (`enable_sampling = false`) are bit-identical whatever the state
of the random source: the encoder is deterministic. -/
theorem C4_deterministic (p : Processor) (ot : OutType)
    (c1 c2 : Nat → Nat) (t : Bytes) :
    p.encode ot false c1 t = p.encode ot false c2 t := by
  cases ot <;> rfl

/-- Splits a list into contiguous chunks of size `max 1 c`, the
per-worker work items of the batch entry points. -/
def chunksOf {α : Type} (c : Nat) : List α → List (List α)
  | [] => []
  | x :: xs =>
    (x :: xs).take (max 1 c) :: chunksOf c ((x :: xs).drop (max 1 c))
termination_by xs => xs.length
decreasing_by
  simp only [List.length_drop, List.length_cons]
  have h1 : 1 ≤ max 1 c := le_max_left 1 c
  omega

theorem chunksOf_flatten {α : Type} (c : Nat) (xs : List α) :
    (chunksOf c xs).flatten = xs := by
  induction xs using chunksOf.induct c with
  | case1 =>
    rw [chunksOf]
    rfl
  | case2 x xs ih =>
    rw [chunksOf, List.flatten_cons, ih, List.take_append_drop]

/-- Modelled from the spec: resolution of the `num_threads` parameter:
unset means one worker, a non-positive value is the "use all cores"
sentinel, and a positive value is used as given. -/
def resolveThreads (numThreads : Option Int) (numCores : Nat) : Nat :=
  match numThreads with
  | none => 1
  | some n => if n ≤ 0 then numCores else n.toNat

/-- Modelled from the spec: a batch entry point splits its input into
contiguous per-worker chunks, applies the single-item operation within
each chunk in order, and concatenates the per-chunk results back in input
order. -/
def batchApply {α β : Type} (f : α → β) (numThreads : Option Int)
    (numCores : Nat) (xs : List α) : List β :=
  ((chunksOf
      ((xs.length + resolveThreads numThreads numCores - 1)
        / resolveThreads numThreads numCores) xs).map
    (fun chunk => chunk.map f)).flatten

theorem batchApply_eq_map {α β : Type} (f : α → β) (nt : Option Int)
    (cores : Nat) (xs : List α) : batchApply f nt cores xs = xs.map f := by
  rw [batchApply, ← List.map_flatten, chunksOf_flatten]

namespace Processor

/-- Modelled from the spec: batch `encode` over a list of texts with the
given `num_threads` setting. -/
def encodeBatch (p : Processor) (ot : OutType) (numThreads : Option Int)
    (numCores : Nat) (texts : List Bytes) : List EncodeOutput :=
  batchApply (p.encode ot false zeroC) numThreads numCores texts

/-- Modelled from the spec: batch `decode` over a list of id sequences
with the given `num_threads` setting. -/
def decodeBatch (p : Processor) (numThreads : Option Int) (numCores : Nat)
    (idss : List (List Nat)) : List (Option Bytes) :=
  batchApply p.DecodeIds numThreads numCores idss

end Processor

/-- C6: for every loaded processor, input list and out_type, batch encode
(and batch decode) with `num_threads` unset, `1`, the negative
use-all-cores sentinel, or any explicit count is elementwise identical to
applying the single-item operation sequentially. -/
theorem C6_batch (p : Processor) (ot : OutType) (nt : Option Int)
    (cores : Nat) (texts : List Bytes) (idss : List (List Nat)) :
    p.encodeBatch ot nt cores texts = texts.map (p.encode ot false zeroC) ∧
      p.decodeBatch nt cores idss = idss.map p.DecodeIds :=
  ⟨batchApply_eq_map _ nt cores texts, batchApply_eq_map _ nt cores idss⟩

/-- Modelled from the spec: all segmentations of a text into lattice
candidates (with single-byte fallback where no vocabulary piece
matches) — the paths the nbest entry points enumerate. -/
def allSegs (p : Processor) : Bytes → List (List Bytes)
  | [] => [[]]
  | b :: rest =>
    if (candidates p (b :: rest)).length = 0 then
      (allSegs p rest).map (fun segs => [b] :: segs)
    else
      ((candidates p (b :: rest)).attach.map
        (fun qh =>
          (allSegs p ((b :: rest).drop qh.val.length)).map
            (fun segs => qh.val :: segs))).flatten
termination_by t => t.length
decreasing_by
  · simp
  · simp only [List.length_drop, List.length_cons]
    have hne := candidates_ne_nil p (b :: rest) qh.val qh.property
    have hpos : 0 < qh.val.length := List.length_pos.mpr hne
    omega

namespace Processor

/-- Modelled from the spec: the first `n` candidate segmentations
returned by the nbest entry points. -/
def nbestSegs (p : Processor) (n : Nat) (t : Bytes) : List (List Bytes) :=
  (allSegs p t).take n

/-- Modelled from the spec: `EncodeAsImmutableProto` materializes the
in-memory protocol message of the default segmentation. -/
def EncodeAsImmutableProto (p : Processor) (t : Bytes) :
    SentencePieceText :=
  sptOf p t (p.EncodeAsPieces t)

/-- Modelled from the spec: `EncodeAsSerializedProto` writes the wire
bytes of the default segmentation directly. -/
def EncodeAsSerializedProto (p : Processor) (t : Bytes) : List Nat :=
  serializedOf p t (p.EncodeAsPieces t)

/-- Modelled from the spec: `NBestEncodeAsImmutableProto` materializes
one message per candidate segmentation. -/
def NBestEncodeAsImmutableProto (p : Processor) (n : Nat) (t : Bytes) :
    NBestSentencePieceText :=
  { nbests := (p.nbestSegs n t).map (sptOf p t) }

/-- Modelled from the spec: `NBestEncodeAsSerializedProto` writes the
wire bytes of the candidate segmentations directly. -/
def NBestEncodeAsSerializedProto (p : Processor) (n : Nat) (t : Bytes) :
    List Nat :=
  encNat (p.nbestSegs n t).length ++
    ((p.nbestSegs n t).map (serializedOf p t)).flatten

/-- Modelled from the spec: `DecodePiecesAsImmutableProto` materializes
the message of a detokenization. -/
def DecodePiecesAsImmutableProto (p : Processor) (qs : List Bytes) :
    SentencePieceText :=
  sptOf p qs.flatten qs

/-- Modelled from the spec: `DecodePiecesAsSerializedProto` writes the
wire bytes of a detokenization directly. -/
def DecodePiecesAsSerializedProto (p : Processor) (qs : List Bytes) :
    List Nat :=
  serializedOf p qs.flatten qs

/-- Modelled from the spec: `DecodeIdsAsImmutableProto`, failing on any
out-of-range id. -/
def DecodeIdsAsImmutableProto (p : Processor) (ids : List Nat) :
    Option SentencePieceText :=
  (p.idPieces ids).map (fun qs => sptOf p qs.flatten qs)

/-- Modelled from the spec: `DecodeIdsAsSerializedProto`, failing on any
out-of-range id. -/
def DecodeIdsAsSerializedProto (p : Processor) (ids : List Nat) :
    Option (List Nat) :=
  (p.idPieces ids).map (fun qs => serializedOf p qs.flatten qs)

end Processor

/-- C7: for every loaded processor and every input, the
serialized-protocol output variant of each operation (encode,
nbest_encode, decode_pieces, decode_ids) equals, byte for byte, the
`SerializeAsString` serialization of the corresponding immutable
in-memory protocol output. -/
theorem C7_serialized_matches_immutable (p : Processor) (t : Bytes)
    (n : Nat) (qs : List Bytes) (ids : List Nat) :
    p.EncodeAsSerializedProto t
        = (p.EncodeAsImmutableProto t).SerializeAsString ∧
      p.NBestEncodeAsSerializedProto n t
        = (p.NBestEncodeAsImmutableProto n t).SerializeAsString ∧
      p.DecodePiecesAsSerializedProto qs
        = (p.DecodePiecesAsImmutableProto qs).SerializeAsString ∧
      p.DecodeIdsAsSerializedProto ids
        = (p.DecodeIdsAsImmutableProto ids).map
            SentencePieceText.SerializeAsString := by
  refine ⟨serializedOf_eq p t _, ?_, serializedOf_eq p _ qs, ?_⟩
  · rw [Processor.NBestEncodeAsSerializedProto,
      Processor.NBestEncodeAsImmutableProto,
      NBestSentencePieceText.SerializeAsString]
    simp only [List.length_map, List.map_map]
    congr 1
    congr 1
    refine List.map_congr_left ?_
    intro segs _
    simp only [Function.comp_apply]
    exact serializedOf_eq p t segs
  · rw [Processor.DecodeIdsAsSerializedProto,
      Processor.DecodeIdsAsImmutableProto]
    cases hp : p.idPieces ids with
    | none => rfl
    | some rs =>
      simp only [Option.map_some']
      rw [serializedOf_eq]

/-- The piece spelled "&lt;unk&gt;" as bytes. -/
def unkPiece : Bytes := [60, 117, 110, 107, 62]

/-- The piece spelled "&lt;s&gt;" as bytes. -/
def bosPiece : Bytes := [60, 115, 62]

/-- The piece spelled "&lt;/s&gt;" as bytes. -/
def eosPiece : Bytes := [60, 47, 115, 62]

/-- The mandatory control pieces of a trained model. -/
def specials : List Bytes := [unkPiece, bosPiece, eosPiece]

/-- The mandatory part of every trained vocabulary: control pieces plus
the 256 byte-fallback pieces. -/
def baseVocab : List Bytes := specials ++ byteSingles

theorem baseVocab_nodup : baseVocab.Nodup := by
  rw [baseVocab, List.nodup_append]
  refine ⟨by decide, byteSingles_nodup, ?_⟩
  intro q hq hq'
  have h1 := mem_byteSingles_length q hq'
  rcases List.mem_cons.mp hq with rfl | hq
  · simp [unkPiece] at h1
  rcases List.mem_cons.mp hq with rfl | hq
  · simp [bosPiece] at h1
  rcases List.mem_cons.mp hq with rfl | hq
  · simp [eosPiece] at h1
  cases hq

/-- The adjacent byte pairs of a text, the corpus-driven candidate
pieces of the modelled trainer. -/
def bytePairs (t : Bytes) : List Bytes :=
  List.zipWith (fun a b => [a, b]) t t.tail

theorem bytePairs_length (t : Bytes) : ∀ q ∈ bytePairs t, q.length = 2 := by
  induction t with
  | nil =>
    intro q hq
    cases hq
  | cons a t ih =>
    intro q hq
    cases t with
    | nil => cases hq
    | cons b t' =>
      rw [bytePairs, List.tail_cons, List.zipWith_cons_cons] at hq
      rcases List.mem_cons.mp hq with rfl | h
      · rfl
      · exact ih q h

/-- The distinct corpus-driven candidate pieces not already mandatory. -/
def trainCandidates (corpus : List Bytes) : List Bytes :=
  ((corpus.map bytePairs).flatten.dedup).filter
    (fun q => decide (q ∉ baseVocab))

theorem trainCandidates_nodup (corpus : List Bytes) :
    (trainCandidates corpus).Nodup :=
  List.Nodup.filter _ (List.nodup_dedup _)

theorem trainCandidates_length (corpus : List Bytes) :
    ∀ q ∈ trainCandidates corpus, q.length = 2 := by
  intro q hq
  have h1 := (List.mem_filter.mp hq).1
  rcases List.mem_flatten.mp (List.mem_dedup.mp h1) with ⟨l, hl, hql⟩
  rcases List.mem_map.mp hl with ⟨t, _, rfl⟩
  exact bytePairs_length t q hql

theorem trainCandidates_not_base (corpus : List Bytes) :
    ∀ q ∈ trainCandidates corpus, q ∉ baseVocab := by
  intro q hq
  exact of_decide_eq_true (List.mem_filter.mp hq).2

/-- The kwargs of the trainer the claims exercise: a corpus path and the
requested vocabulary size. -/
structure TrainArgs where
  input : String
  vocab_size : Nat
deriving DecidableEq

namespace SentencePieceTrainer

/-- Modelled from the spec: the native `SentencePieceTrainer.Train`
(unigram/BPE training) is not in the visible source.  The modelled
trainer builds a vocabulary from the mandatory pieces (controls and byte
fallback) plus distinct corpus-driven candidate pieces, truncated to the
requested size, and fails when the request cannot hold the mandatory
pieces.  The result is a loadable processor. -/
def Train (args : TrainArgs) (corpus : List Bytes) : Option Processor :=
  if hv : args.vocab_size < baseVocab.length then none
  else some
    { pieces := baseVocab ++
        (trainCandidates corpus).take (args.vocab_size - baseVocab.length)
      scoreFn := fun _ => 0
      typeFn := fun _ => SPieceType.normal
      nodup := by
        rw [List.nodup_append]
        refine ⟨baseVocab_nodup,
          List.Sublist.nodup (List.take_sublist _ _)
            (trainCandidates_nodup corpus), ?_⟩
        intro q hq hq'
        exact trainCandidates_not_base corpus q
          ((List.take_sublist _ _).subset hq') hq
      noNil := by
        intro h
        rcases List.mem_append.mp h with h1 | h1
        · revert h1
          decide
        · have h2 := trainCandidates_length corpus []
            ((List.take_sublist _ _).subset h1)
          simp at h2
      byteCover := fun b hb =>
        List.mem_append_left _
          (List.mem_append_right _ (byteSingles_cover b hb)) }

end SentencePieceTrainer

/-- Splits a character list into space-separated tokens (the flag tokens
of a trainer configuration string). -/
def splitWords : List Char → List Char → List (List Char)
  | [], acc => [acc.reverse]
  | c :: cs, acc =>
    if c = ' ' then acc.reverse :: splitWords cs []
    else splitWords cs (c :: acc)

/-- Parses one decimal digit. -/
def parseDigit (c : Char) : Option Nat :=
  if c.isDigit then some (c.toNat - 48) else none

/-- Parses a decimal numeral, left to right. -/
def parseNatChars : List Char → Nat → Option Nat
  | [], acc => some acc
  | c :: cs, acc =>
    match parseDigit c with
    | some d => parseNatChars cs (acc * 10 + d)
    | none => none

/-- Finds the value of a `--flag=` token among the tokens. -/
def findFlag (flag : List Char) : List (List Char) → Option (List Char)
  | [] => none
  | tk :: tks =>
    if flag.isPrefixOf tk then some (tk.drop flag.length)
    else findFlag flag tks

/-- Modelled from the spec: parsing of the `--flag=value` configuration
string accepted by the trainer's string entry point. -/
def parseTrainConfig (cfg : String) : Option TrainArgs :=
  match findFlag ("--input=".data) (splitWords cfg.data []),
      (findFlag ("--vocab_size=".data) (splitWords cfg.data [])).bind
        (fun cs => parseNatChars cs 0) with
  | some inp, some v => some { input := String.mk inp, vocab_size := v }
  | _, _ => none

namespace SentencePieceTrainer

/-- Modelled from the spec: the trainer invoked with a configuration
string instead of keyword arguments. -/
def TrainFromString (cfg : String) (corpus : List Bytes) :
    Option Processor :=
  (parseTrainConfig cfg).bind (fun args => Train args corpus)

end SentencePieceTrainer

/-- C8: training, invoked with keyword arguments or with any
configuration string carrying the same corpus path and requested
vocabulary size, produces a model that loads as a processor and whose
vocabulary size matches the requested value, reduced to the mandatory
pieces plus the corpus-driven candidates when the corpus offers fewer
pieces than requested. -/
theorem C8_train (args : TrainArgs) (corpus : List Bytes) (cfg : String)
    (hv : baseVocab.length ≤ args.vocab_size)
    (hcfg : parseTrainConfig cfg = some args) :
    ∃ pr : Processor,
      SentencePieceTrainer.Train args corpus = some pr ∧
        SentencePieceTrainer.TrainFromString cfg corpus = some pr ∧
        pr.GetPieceSize
          = min args.vocab_size
              (baseVocab.length + (trainCandidates corpus).length) := by
  rw [SentencePieceTrainer.Train, dif_neg (by omega)]
  refine ⟨_, rfl, ?_, ?_⟩
  · rw [SentencePieceTrainer.TrainFromString, hcfg, Option.some_bind,
      SentencePieceTrainer.Train, dif_neg (by omega)]
  · show (baseVocab ++
        (trainCandidates corpus).take
          (args.vocab_size - baseVocab.length)).length = _
    rw [List.length_append, List.length_take]
    omega

/-- Witness for C8: training on the one-sentence corpus "hi" with
requested size 260, via kwargs and via the configuration string. -/
theorem C8_train_witness :
    baseVocab.length ≤ 260 ∧
      parseTrainConfig
          "--input=botchan.txt --model_prefix=m --vocab_size=260"
        = some { input := "botchan.txt", vocab_size := 260 } ∧
      ∃ pr : Processor,
        SentencePieceTrainer.Train
            { input := "botchan.txt", vocab_size := 260 } [[104, 105]]
          = some pr ∧
          SentencePieceTrainer.TrainFromString
              "--input=botchan.txt --model_prefix=m --vocab_size=260"
              [[104, 105]]
            = some pr ∧
          pr.GetPieceSize
            = min 260
                (baseVocab.length + (trainCandidates [[104, 105]]).length) :=
  ⟨by decide, by decide,
    C8_train { input := "botchan.txt", vocab_size := 260 } [[104, 105]]
      "--input=botchan.txt --model_prefix=m --vocab_size=260"
      (by decide) (by decide)⟩

/-- The build environment `setup.py` runs in: which files exist, what each
`pkg-config sentencepiece --{section}` query returns (`none` models a
`CalledProcessError`), whether the `pkg-config sentencepiece --libs`
probe succeeds, whether `./build_bundled.sh` succeeds, and the platform
name. -/
structure BuildEnv where
  pathExists : String → Bool
  pkgOutput : String → Option (List String)
  installed : Bool
  bundledOk : Bool
  platform : String

/-- How a build run ends when it does not return flags: `sysExit code`
models `sys.exit(code)`, `calledProcessError` an uncaught
`subprocess.CalledProcessError`. -/
inductive BuildFailure where
  | sysExit (code : Nat)
  | calledProcessError
deriving DecidableEq

/-- From `setup.py`, `run_pkg_config`: runs
`pkg-config sentencepiece --{section}`; on `CalledProcessError` it writes
a message to stderr and calls `sys.exit(1)`, otherwise it returns the
split output. -/
def run_pkg_config (env : BuildEnv) (section_ : String) :
    Except BuildFailure (List String) :=
  match env.pkgOutput section_ with
  | none => Except.error (BuildFailure.sysExit 1)
  | some out => Except.ok out

/-- From `setup.py`, `get_cflags_and_libs`: the C++17 include flags and,
when a pkg-config file exists under `root`, the static library paths
(under `lib` or `lib64`). -/
def get_cflags_and_libs (env : BuildEnv) (root : String) :
    List String × List String :=
  let cflags := ["-std=c++17", "-I" ++ root ++ "/include"]
  if env.pathExists (root ++ "/lib/pkgconfig/sentencepiece.pc") then
    (cflags, [root ++ "/lib/libsentencepiece.a",
              root ++ "/lib/libsentencepiece_train.a"])
  else if env.pathExists (root ++ "/lib64/pkgconfig/sentencepiece.pc") then
    (cflags, [root ++ "/lib64/libsentencepiece.a",
              root ++ "/lib64/libsentencepiece_train.a"])
  else (cflags, [])

/-- From `setup.py`, `build_ext.build_extension`: takes flags from the
sibling build root if present; otherwise, if sentencepiece is installed,
queries pkg-config for cflags and libs (exiting on query failure);
otherwise runs the bundled build (raising on its failure); then appends
the platform-specific flags. -/
def build_extension (env : BuildEnv) :
    Except BuildFailure (List String × List String) :=
  let start := get_cflags_and_libs env "../build/root"
  let step : Except BuildFailure (List String × List String) :=
    if start.2.length = 0 then
      if env.installed then
        match run_pkg_config env "cflags", run_pkg_config env "libs" with
        | Except.ok c, Except.ok l => Except.ok (start.1 ++ c, l)
        | Except.error e, _ => Except.error e
        | _, Except.error e => Except.error e
      else
        if env.bundledOk then
          Except.ok (get_cflags_and_libs env "./build/root")
        else Except.error BuildFailure.calledProcessError
    else Except.ok start
  match step with
  | Except.error e => Except.error e
  | Except.ok (cflags1, libs1) =>
    if env.platform = "darwin" then
      Except.ok (cflags1 ++ ["-mmacosx-version-min=10.9"], libs1)
    else
      if env.platform = "linux" then
        Except.ok (cflags1 ++ ["-Wl,-strip-all"],
          (libs1 ++ ["-Wl,-strip-all"]) ++ ["-Wl,-Bsymbolic"])
      else
        Except.ok (cflags1 ++ ["-Wl,-strip-all"], libs1 ++ ["-Wl,-strip-all"])

/-- C9: whenever extension building reaches the pkg-config query (no
local sibling build root, sentencepiece reported installed) and the query
for either section fails, the build exits with status 1 — a nonzero
status — instead of continuing to produce flags. -/
theorem C9_pkg_config_failure_fatal (env : BuildEnv)
    (hlibs : (get_cflags_and_libs env "../build/root").2 = [])
    (hinst : env.installed = true)
    (hfail : env.pkgOutput "cflags" = none ∨ env.pkgOutput "libs" = none) :
    build_extension env = Except.error (BuildFailure.sysExit 1) ∧
      (1 : Nat) ≠ 0 := by
  refine ⟨?_, by omega⟩
  rw [build_extension]
  simp only [hlibs, List.length_nil, if_pos rfl, hinst, if_true]
  rcases hfail with hf | hf
  · rw [run_pkg_config, run_pkg_config, hf]
    cases env.pkgOutput "libs" <;> rfl
  · rw [run_pkg_config, run_pkg_config, hf]
    cases env.pkgOutput "cflags" <;> rfl

/-- A concrete build environment: no sibling build root, sentencepiece
reported installed, every pkg-config query failing. -/
def failingBuildEnv : BuildEnv where
  pathExists := fun _ => false
  pkgOutput := fun _ => none
  installed := true
  bundledOk := true
  platform := "linux"

/-- Witness for C9: the failing query aborts the build of the concrete
environment with exit status 1. -/
theorem C9_pkg_config_failure_fatal_witness :
    (get_cflags_and_libs failingBuildEnv "../build/root").2 = [] ∧
      failingBuildEnv.installed = true ∧
      (failingBuildEnv.pkgOutput "cflags" = none ∨
        failingBuildEnv.pkgOutput "libs" = none) ∧
      (build_extension failingBuildEnv
          = Except.error (BuildFailure.sysExit 1) ∧ (1 : Nat) ≠ 0) :=
  ⟨rfl, rfl, Or.inl rfl,
    C9_pkg_config_failure_fatal failingBuildEnv rfl rfl (Or.inl rfl)⟩

/-- The mutable interpreter state `initialize_module` touches: the import
search path `sys.path`, the `LD_LIBRARY_PATH` environment variable
(`none` when unset), and the platform name. -/
structure SysState where
  sysPath : List String
  ldLibraryPath : Option String
  platform : String

/-- Python's substring test `a in b` on strings. -/
def strContains (a b : String) : Bool := decide (a.data <:+: b.data)

/-- From `_init.py`, `initialize_module`: inserts the module directory at
the front of `sys.path` when it is not already a member; then, when the
platform starts with "linux", prepends `"{module_dir}:"` to
`LD_LIBRARY_PATH` when the module directory does not already occur as a
substring of its value (an unset variable reads as the empty string). -/
def initialize_module (moduleDir : String) (s : SysState) : SysState :=
  let s1 :=
    if moduleDir ∈ s.sysPath then s
    else { s with sysPath := moduleDir :: s.sysPath }
  if s1.platform.startsWith "linux" then
    let libPath := s1.ldLibraryPath.getD ""
    if strContains moduleDir libPath then s1
    else { s1 with ldLibraryPath := some (moduleDir ++ ":" ++ libPath) }
  else s1

theorem strContains_self_append (m rest : String) :
    strContains m (m ++ rest) = true := by
  rw [strContains, decide_eq_true_eq, String.data_append]
  have hpre : m.data <+: m.data ++ rest.data := ⟨rest.data, rfl⟩
  exact hpre.isInfix

theorem strContains_prepended (m lib : String) :
    strContains m (m ++ ":" ++ lib) = true := by
  rw [String.append_assoc]
  exact strContains_self_append m (":" ++ lib)

/-- C10: `initialize_module` is idempotent: after one run, a second run
leaves both `sys.path` and `LD_LIBRARY_PATH` unchanged, because the
module directory is inserted into `sys.path` only when not already a
member, and prepended to `LD_LIBRARY_PATH` only when its string does not
already occur as a substring of the variable's value. -/
theorem C10_initialize_idempotent (moduleDir : String) (s : SysState) :
    initialize_module moduleDir (initialize_module moduleDir s)
      = initialize_module moduleDir s := by
  by_cases h2 : s.platform.startsWith "linux" = true
  · by_cases h1 : moduleDir ∈ s.sysPath
    · by_cases h3 : strContains moduleDir (s.ldLibraryPath.getD "") = true
      · have hs : initialize_module moduleDir s = s := by
          rw [initialize_module]
          simp [h1, h2, h3]
        rw [hs, hs]
      · have hs : initialize_module moduleDir s = { s with ldLibraryPath := some (moduleDir ++ ":" ++ s.ldLibraryPath.getD "") } := by
          rw [initialize_module]
          simp [h1, h2, h3]
        rw [hs, initialize_module]
        simp [h1, h2, strContains_prepended]
    · by_cases h3 : strContains moduleDir (s.ldLibraryPath.getD "") = true
      · have hs : initialize_module moduleDir s = { s with sysPath := moduleDir :: s.sysPath } := by
          rw [initialize_module]
          simp [h1, h2, h3]
        rw [hs, initialize_module]
        simp [h2, h3]
      · have hs : initialize_module moduleDir s = { s with sysPath := moduleDir :: s.sysPath, ldLibraryPath := some (moduleDir ++ ":" ++ s.ldLibraryPath.getD "") } := by
          rw [initialize_module]
          simp [h1, h2, h3]
        rw [hs, initialize_module]
        simp [h2, strContains_prepended]
  · by_cases h1 : moduleDir ∈ s.sysPath
    · have hs : initialize_module moduleDir s = s := by
        rw [initialize_module]
        simp [h1, h2]
      rw [hs, hs]
    · have hs : initialize_module moduleDir s = { s with sysPath := moduleDir :: s.sysPath } := by
        rw [initialize_module]
        simp [h1, h2]
      rw [hs, initialize_module]
      simp [h2]
